import Mathlib

/-!
Verification of the threaded messaging application (tRPC routers over a
relational store) against its natural-language specification.

Shallow embedding conventions:
* UUID columns (`uuid` primary keys, foreign keys) are abstracted as `Nat`
  together with its linear order, standing for the total order the database
  uses on uuid values for `ORDER BY` / `<` comparisons.
* `timestamp` columns are abstracted as `Nat`.
* Drizzle `select ... where ... orderBy(desc(createdAt), desc(id)) limit n`
  is modelled as filter, then a sort by the descending key, then `take n`.
  The sort is an insertion sort `sortByLe`, proved to be a sorting function.
* `innerJoin(users, eq(messages.senderId, users.id))` keeps exactly the rows
  whose sender exists, modelled by the `senderJoin` conjunct of the filter.
* Mutations return `Except TRPCErrorCode DB`: an `.error` result carries no
  state, so a failed mutation leaves the database unchanged by construction.
-/

/-- Row of the `users` table (`src/server/db/schemas/users.ts`). -/
structure UserRow where
  id : Nat
  clerkUserId : String
  username : String
deriving DecidableEq, Repr

/-- Row of the `threads` table (`src/server/db/schemas/threads.ts`). -/
structure ThreadRow where
  id : Nat
  name : Option String
  createdAt : Nat
  lastMessageAt : Nat
deriving DecidableEq, Repr

/-- Row of the `thread_participants` table
(`src/server/db/schemas/thread-participants.ts`). -/
structure ParticipantRow where
  threadId : Nat
  userId : Nat
  joinedAt : Nat
deriving DecidableEq, Repr

/-- Row of the `messages` table (`src/server/db/schemas/messages.ts`). -/
structure MessageRow where
  id : Nat
  threadId : Nat
  senderId : Nat
  content : String
  createdAt : Nat
  updatedAt : Nat
  editedAt : Option Nat
  isDeleted : Bool
deriving DecidableEq, Repr

/-- The relational store: the four tables of the schema. -/
structure DB where
  users : List UserRow
  threads : List ThreadRow
  participants : List ParticipantRow
  messages : List MessageRow
deriving DecidableEq, Repr

/-- tRPC error codes used by the routers. -/
inductive TRPCErrorCode where
  | notFound
  | forbidden
  | badRequest
  | unauthorized
  | internalServerError
deriving DecidableEq, Repr

/-- Pagination cursor: `{ id, createdAt }` of the oldest returned row
(`messagesRouter.list` input schema). -/
structure Cursor where
  id : Nat
  createdAt : Nat
deriving DecidableEq, Repr

/-- `SELECT id FROM threads WHERE id = threadId LIMIT 1` is nonempty. -/
def threadExists (db : DB) (threadId : Nat) : Bool :=
  db.threads.any (fun th => th.id == threadId)

/-- `SELECT * FROM thread_participants WHERE threadId = t AND userId = u LIMIT 1`
is nonempty: the access-control guard used by every thread-scoped operation. -/
def isParticipant (db : DB) (threadId userId : Nat) : Bool :=
  db.participants.any (fun p => p.threadId == threadId && p.userId == userId)

/-- The `innerJoin(users, eq(messages.senderId, users.id))`: a message row
survives the join exactly when its sender exists in `users`. -/
def senderJoin (db : DB) (m : MessageRow) : Bool :=
  db.users.any (fun u => u.id == m.senderId)

/-- Strict lexicographic order on `(createdAt, id)` sort keys. -/
def pairLt (p q : Nat × Nat) : Bool :=
  decide (p.1 < q.1) || (decide (p.1 = q.1) && decide (p.2 < q.2))

/-- The composite sort key of a message: `(createdAt, id)`. -/
def msgKey (m : MessageRow) : Nat × Nat :=
  (m.createdAt, m.id)

/-- `a` may precede `b` in `orderBy(desc(createdAt), desc(id))` order:
the key of `b` is at most the key of `a`. -/
def msgDescLe (a b : MessageRow) : Bool :=
  pairLt (msgKey b) (msgKey a) || decide (msgKey b = msgKey a)

/-- Insert an element into a list, in front of the first element it may
precede (helper of the insertion sort `sortByLe`). -/
def insertLe {α : Type} (le : α → α → Bool) (a : α) : List α → List α
  | [] => [a]
  | b :: l => if le a b then a :: b :: l else b :: insertLe le a l

/-- Insertion sort by the boolean relation `le`; models SQL `ORDER BY`. -/
def sortByLe {α : Type} (le : α → α → Bool) : List α → List α
  | [] => []
  | a :: l => insertLe le a (sortByLe le l)

theorem perm_insertLe {α : Type} (le : α → α → Bool) (a : α) :
    ∀ l : List α, (insertLe le a l).Perm (a :: l) := by
  intro l
  induction l with
  | nil => simp [insertLe]
  | cons b t ih =>
    simp only [insertLe]
    by_cases h : le a b = true
    · simp [h]
    · simp only [h]
      simp only [Bool.false_eq_true, if_false]
      exact (ih.cons b).trans (List.Perm.swap a b t)

theorem perm_sortByLe {α : Type} (le : α → α → Bool) :
    ∀ l : List α, (sortByLe le l).Perm l := by
  intro l
  induction l with
  | nil => simp [sortByLe]
  | cons a t ih =>
    simp only [sortByLe]
    exact (perm_insertLe le a (sortByLe le t)).trans (ih.cons a)

theorem pairwise_insertLe {α : Type} (le : α → α → Bool)
    (htot : ∀ a b : α, le a b || le b a)
    (htrans : ∀ a b c : α, le a b = true → le b c = true → le a c = true)
    (a : α) :
    ∀ l : List α, l.Pairwise (fun x y => le x y = true) →
      (insertLe le a l).Pairwise (fun x y => le x y = true) := by
  intro l
  induction l with
  | nil => simp [insertLe]
  | cons b t ih =>
    intro hp
    rcases List.pairwise_cons.mp hp with ⟨hb, ht⟩
    simp only [insertLe]
    by_cases h : le a b = true
    · simp only [h, if_true]
      refine List.pairwise_cons.mpr ⟨?_, hp⟩
      intro x hx
      rcases List.mem_cons.mp hx with rfl | hx
      · exact h
      · exact htrans a b x h (hb x hx)
    · simp only [h]
      simp only [Bool.false_eq_true, if_false]
      refine List.pairwise_cons.mpr ⟨?_, ih ht⟩
      intro x hx
      have hx' : x ∈ a :: t := (perm_insertLe le a t).mem_iff.mp hx
      rcases List.mem_cons.mp hx' with rfl | hx'
      · have := htot x b
        rcases Bool.or_eq_true_iff.mp this with h1 | h1
        · exact absurd h1 h
        · exact h1
      · exact hb x hx'

theorem pairwise_sortByLe {α : Type} (le : α → α → Bool)
    (htot : ∀ a b : α, le a b || le b a)
    (htrans : ∀ a b c : α, le a b = true → le b c = true → le a c = true) :
    ∀ l : List α, (sortByLe le l).Pairwise (fun x y => le x y = true) := by
  intro l
  induction l with
  | nil => simp [sortByLe]
  | cons a t ih =>
    simp only [sortByLe]
    exact pairwise_insertLe le htot htrans a (sortByLe le t) ih

theorem pairLt_irrefl (p : Nat × Nat) : pairLt p p = false := by
  simp [pairLt]

theorem pairLt_asymm {p q : Nat × Nat} (h1 : pairLt p q = true)
    (h2 : pairLt q p = true) : False := by
  simp only [pairLt, Bool.or_eq_true, Bool.and_eq_true, decide_eq_true_eq] at h1 h2
  omega

theorem pairLt_trans {p q r : Nat × Nat} (h1 : pairLt p q = true)
    (h2 : pairLt q r = true) : pairLt p r = true := by
  simp only [pairLt, Bool.or_eq_true, Bool.and_eq_true, decide_eq_true_eq] at *
  omega

theorem msgDescLe_total (a b : MessageRow) : msgDescLe a b || msgDescLe b a := by
  simp only [msgDescLe, pairLt, msgKey, Bool.or_eq_true, Bool.and_eq_true,
    decide_eq_true_eq, Prod.mk.injEq, Prod.ext_iff]
  omega

theorem msgDescLe_trans (a b c : MessageRow) (h1 : msgDescLe a b = true)
    (h2 : msgDescLe b c = true) : msgDescLe a c = true := by
  simp only [msgDescLe, pairLt, msgKey, Bool.or_eq_true, Bool.and_eq_true,
    decide_eq_true_eq, Prod.mk.injEq, Prod.ext_iff] at *
  omega

/-- A list sorted by `msgDescLe` whose message ids are distinct is strictly
descending in the `(createdAt, id)` key. -/
theorem pairwise_strict_of_sorted {l : List MessageRow}
    (hs : l.Pairwise (fun x y => msgDescLe x y = true))
    (hn : (l.map MessageRow.id).Nodup) :
    l.Pairwise (fun a b => pairLt (msgKey b) (msgKey a) = true) := by
  have hne : l.Pairwise (fun a b => a.id ≠ b.id) := by
    have := (List.pairwise_map (f := MessageRow.id)
      (R := fun a b => a ≠ b) (l := l)).mp hn
    exact this
  have := hs.and hne
  refine this.imp ?_
  intro a b hab
  rcases hab with ⟨hle, hid⟩
  simp only [msgDescLe, Bool.or_eq_true, decide_eq_true_eq] at hle
  rcases hle with h | h
  · exact h
  · exfalso
    apply hid
    have : b.createdAt = a.createdAt ∧ b.id = a.id := by
      simpa [msgKey, Prod.ext_iff] using h
    exact this.2.symm

/-- Two permuted lists, both pairwise related by an asymmetric relation,
are equal (the key uniqueness fact behind deterministic `ORDER BY`). -/
theorem eq_of_perm_of_pairwise_asymm {α : Type} {r : α → α → Prop}
    (hasymm : ∀ a b, r a b → r b a → False) :
    ∀ l₁ l₂ : List α, l₁.Perm l₂ → l₁.Pairwise r → l₂.Pairwise r → l₁ = l₂ := by
  intro l₁
  induction l₁ with
  | nil =>
    intro l₂ hperm _ _
    exact (hperm.nil_eq).symm ▸ rfl
  | cons a t ih =>
    intro l₂ hperm h1 h2
    cases l₂ with
    | nil => exact absurd hperm.symm (by simp)
    | cons b t' =>
      rcases List.pairwise_cons.mp h1 with ⟨ha, ht⟩
      rcases List.pairwise_cons.mp h2 with ⟨hb, ht'⟩
      have hab : a = b := by
        have haMem : a ∈ b :: t' := hperm.mem_iff.mp (List.mem_cons_self a t)
        rcases List.mem_cons.mp haMem with rfl | haT'
        · rfl
        · have hbMem : b ∈ a :: t := hperm.mem_iff.mpr (List.mem_cons_self b t')
          rcases List.mem_cons.mp hbMem with rfl | hbT
          · rfl
          · exact absurd (hb a haT') (fun h => hasymm a b (ha b hbT) h)
      subst hab
      have := ih t' (hperm.cons_inv) ht ht'
      rw [this]

/-- Filtering a strictly descending list by "strictly below the key of the
last element of its prefix `P`" yields exactly the suffix `R`. -/
theorem filter_pairLt_getLast {P R : List MessageRow} (hP : P ≠ [])
    (hpair : (P ++ R).Pairwise (fun a b => pairLt (msgKey b) (msgKey a) = true)) :
    (P ++ R).filter (fun m => pairLt (msgKey m) (msgKey (P.getLast hP))) = R := by
  rcases List.pairwise_append.mp hpair with ⟨hPP, hRR, hPR⟩
  rw [List.filter_append]
  have hlast : P.getLast hP ∈ P := List.getLast_mem hP
  have hfR : R.filter (fun m => pairLt (msgKey m) (msgKey (P.getLast hP))) = R := by
    rw [List.filter_eq_self]
    intro b hb
    exact hPR (P.getLast hP) hlast b hb
  have hfP : P.filter (fun m => pairLt (msgKey m) (msgKey (P.getLast hP))) = [] := by
    rw [List.filter_eq_nil_iff]
    intro m hm
    have hsplit : P.dropLast ++ [P.getLast hP] = P := List.dropLast_append_getLast hP
    rw [← hsplit] at hm
    rcases List.mem_append.mp hm with hmd | hml
    · have hPP' : (P.dropLast ++ [P.getLast hP]).Pairwise
          (fun a b => pairLt (msgKey b) (msgKey a) = true) := by
        rw [hsplit]; exact hPP
      rcases List.pairwise_append.mp hPP' with ⟨_, _, hrel⟩
      have := hrel m hmd (P.getLast hP) (List.mem_singleton_self _)
      intro hcon
      exact pairLt_asymm this hcon
    · have : m = P.getLast hP := List.mem_singleton.mp hml
      subst this
      simp [pairLt_irrefl]
  rw [hfP, hfR]
  rfl

/-- `baseCondition` of `messagesRouter.list`:
`and(eq(messages.threadId, input.threadId), eq(messages.isDeleted, false))`. -/
def baseCondition (threadId : Nat) (m : MessageRow) : Bool :=
  m.threadId == threadId && m.isDeleted == false

/-- `cursorCondition` of `messagesRouter.list`:
`or(lt(createdAt, cursor.createdAt), and(eq(createdAt, cursor.createdAt), lt(id, cursor.id)))`. -/
def cursorCondition (c : Cursor) (m : MessageRow) : Bool :=
  decide (m.createdAt < c.createdAt) ||
    (decide (m.createdAt = c.createdAt) && decide (m.id < c.id))

/-- The optional cursor bound: absent cursor keeps every row
(`whereClause = cursorCondition ? and(baseCondition, cursorCondition) : baseCondition`). -/
def cursorPred (cursor : Option Cursor) (m : MessageRow) : Bool :=
  match cursor with
  | none => true
  | some c => cursorCondition c m

/-- The message query shared by `list`: filter by thread, non-deleted,
cursor bound and sender join, ordered `desc(createdAt), desc(id)`. -/
def messagesQueryDesc (db : DB) (threadId : Nat) (cursor : Option Cursor) :
    List MessageRow :=
  sortByLe msgDescLe
    (db.messages.filter
      (fun m => baseCondition threadId m && cursorPred cursor m && senderJoin db m))

/-- Result shape of `messagesRouter.list`: the chronological page and the
next cursor. -/
structure ListOutput where
  messages : List MessageRow
  nextCursor : Option Cursor
deriving DecidableEq, Repr

/-- `messagesRouter.list` (`src` messages router, lines 16-120): thread
existence check, participation check, fetch of `limit + 1` rows in
descending order, trim, reverse to chronological order, and derivation of
the next cursor from the oldest returned row. -/
def messagesList (db : DB) (callerId threadId limit : Nat)
    (cursor : Option Cursor) : Except TRPCErrorCode ListOutput :=
  if !(threadExists db threadId) then .error .notFound
  else if !(isParticipant db threadId callerId) then .error .forbidden
  else
    let messageList := (messagesQueryDesc db threadId cursor).take (limit + 1)
    let hasMore := decide (limit < messageList.length)
    let trimmedMessages := if hasMore then messageList.dropLast else messageList
    let chronologicalMessages := trimmedMessages.reverse
    let nextCursor : Option Cursor :=
      if hasMore && !trimmedMessages.isEmpty then
        match trimmedMessages.getLast? with
        | some m => some ⟨m.id, m.createdAt⟩
        | none => none
      else none
    .ok ⟨chronologicalMessages, nextCursor⟩

/-- `messagesRouter.send` (lines 122-229): same guards, then the insert of the
new message row and the update of the owning thread's `lastMessageAt`. -/
def messagesSend (db : DB) (callerId threadId : Nat) (content : String)
    (newId now : Nat) : Except TRPCErrorCode DB :=
  if !(threadExists db threadId) then .error .notFound
  else if !(isParticipant db threadId callerId) then .error .forbidden
  else
    let newMessage : MessageRow :=
      { id := newId, threadId := threadId, senderId := callerId,
        content := content, createdAt := now, updatedAt := now,
        editedAt := none, isDeleted := false }
    .ok { db with
      messages := db.messages ++ [newMessage],
      threads := db.threads.map
        (fun th => if th.id == threadId then { th with lastMessageAt := now } else th) }

/-- `messagesRouter.getLatest` (lines 231-301): same guards, newest `limit`
non-deleted rows of the thread in descending order, reversed to
chronological order. -/
def messagesGetLatest (db : DB) (callerId threadId limit : Nat) :
    Except TRPCErrorCode (List MessageRow) :=
  if !(threadExists db threadId) then .error .notFound
  else if !(isParticipant db threadId callerId) then .error .forbidden
  else
    let latestMessages :=
      (sortByLe msgDescLe
        (db.messages.filter
          (fun m => baseCondition threadId m && senderJoin db m))).take limit
    .ok latestMessages.reverse

/-- `messagesRouter.edit` (lines 303-372): sender-only, not-deleted guard,
then content update with `editedAt` and `updatedAt` set to now. -/
def messagesEdit (db : DB) (callerId messageId : Nat) (content : String)
    (now : Nat) : Except TRPCErrorCode DB :=
  match db.messages.find? (fun m => m.id == messageId) with
  | none => .error .notFound
  | some existingMessage =>
    if !(existingMessage.senderId == callerId) then .error .forbidden
    else if existingMessage.isDeleted then .error .badRequest
    else
      .ok { db with
        messages := db.messages.map
          (fun m => if m.id == messageId then
            { m with content := content, editedAt := some now, updatedAt := now }
          else m) }

/-- `messagesRouter.delete` (lines 374-436): sender-only,
not-already-deleted guard, then the soft delete (`isDeleted := true`,
`updatedAt := now`; the content column is not touched). -/
def messagesDelete (db : DB) (callerId messageId : Nat) (now : Nat) :
    Except TRPCErrorCode DB :=
  match db.messages.find? (fun m => m.id == messageId) with
  | none => .error .notFound
  | some existingMessage =>
    if !(existingMessage.senderId == callerId) then .error .forbidden
    else if existingMessage.isDeleted then .error .badRequest
    else
      .ok { db with
        messages := db.messages.map
          (fun m => if m.id == messageId then
            { m with isDeleted := true, updatedAt := now }
          else m) }

/-- Iteration state of JavaScript `Set` insertion: keep the first
occurrence of each value, skip values already seen. -/
def jsSetDedupGo (seen : List Nat) : List Nat → List Nat
  | [] => []
  | x :: xs =>
    if seen.contains x then jsSetDedupGo seen xs
    else x :: jsSetDedupGo (x :: seen) xs

/-- First-occurrence deduplication, the behaviour of the JavaScript
`[...new Set(allParticipantIds)]` in `threadsRouter.create`. -/
def jsSetDedup (l : List Nat) : List Nat := jsSetDedupGo [] l

/-- `threadsRouter.create` (`src` threads router, lines 47-126): validates
that the number of user rows matching `participantIds` equals
`participantIds.length`, inserts the thread, then inserts the deduplicated
participant set `[...participantIds, callerId]`. -/
def threadsCreate (db : DB) (callerId : Nat) (name : Option String)
    (participantIds : List Nat) (newThreadId now : Nat) :
    Except TRPCErrorCode (DB × ThreadRow) :=
  let existingUsers := db.users.filter (fun u => participantIds.contains u.id)
  if !(existingUsers.length == participantIds.length) then .error .badRequest
  else
    let thread : ThreadRow :=
      { id := newThreadId, name := name, createdAt := now, lastMessageAt := now }
    let allParticipantIds := participantIds ++ [callerId]
    let uniqueParticipantIds := jsSetDedup allParticipantIds
    .ok ({ db with
      threads := db.threads ++ [thread],
      participants := db.participants ++
        uniqueParticipantIds.map
          (fun userId => { threadId := newThreadId, userId := userId, joinedAt := now }) },
      thread)

/-- `threadsRouter.getById` (lines 128-176): participation guard FIRST,
thread lookup second. -/
def threadsGetById (db : DB) (callerId threadId : Nat) :
    Except TRPCErrorCode ThreadRow :=
  if !(isParticipant db threadId callerId) then .error .forbidden
  else
    match db.threads.find? (fun th => th.id == threadId) with
    | none => .error .notFound
    | some thread => .ok thread

/-- `threadsRouter.addParticipant` (lines 178-241): caller-participation
guard first, then target-user existence, then duplicate-membership check,
then the insert. -/
def threadsAddParticipant (db : DB) (callerId threadId userId now : Nat) :
    Except TRPCErrorCode DB :=
  if !(isParticipant db threadId callerId) then .error .forbidden
  else if !(db.users.any (fun u => u.id == userId)) then .error .notFound
  else if isParticipant db threadId userId then .error .badRequest
  else
    .ok { db with
      participants := db.participants ++
        [{ threadId := threadId, userId := userId, joinedAt := now }] }

/-- A drizzle condition value, as built inside `usersRouter.searchByUsername`:
`ilike(users.username, pattern)` or `ne(users.id, callerId)`. -/
inductive SQLCond where
  | ilikeUsername (pattern : String)
  | neId (id : Nat)
deriving DecidableEq, Repr

/-- The JavaScript `&&` applied to two drizzle condition objects: both
operands are truthy objects, so the expression evaluates to the second
operand; the first condition is discarded, not conjoined. -/
def jsAnd (a b : SQLCond) : SQLCond := b

/-- Whether `needle` occurs as a contiguous run inside `hay`. -/
def isInfixList (needle : List Char) : List Char → Bool
  | [] => needle.isEmpty
  | c :: rest => needle.isPrefixOf (c :: rest) || isInfixList needle rest

/-- Strip the SQL wildcard marks from the edges of a LIKE pattern. -/
def stripPercents (l : List Char) : List Char :=
  ((l.dropWhile (fun c => c == '%')).reverse.dropWhile (fun c => c == '%')).reverse

/-- Evaluate one drizzle condition against a user row (`ilike` is
case-insensitive containment for a `%...%` pattern). -/
def condHolds (cond : SQLCond) (u : UserRow) : Bool :=
  match cond with
  | .ilikeUsername pattern =>
    isInfixList ((stripPercents pattern.data).map Char.toLower)
      (u.username.data.map Char.toLower)
  | .neId i => !(u.id == i)

/-- `usersRouter.searchByUsername` (`src` users router, lines 267-287): the
where clause is the JavaScript expression
`ilike(users.username, pat) && ne(users.id, ctx.auth.userId)`. -/
def usersSearchByUsername (db : DB) (callerId : Nat) (username : String)
    (limit : Nat) : List UserRow :=
  (db.users.filter
    (condHolds (jsAnd (.ilikeUsername ("%" ++ username ++ "%")) (.neId callerId)))).take
    limit

/-- The identity-provider webhook payload (`ClerkUserWebhookEvent`):
`email_addresses` entries are modelled as `(id, email_address)` pairs. -/
structure ClerkWebhookUser where
  id : String
  username : Option String
  emailAddresses : List (String × String)
  primaryEmailAddressId : Option String
deriving DecidableEq, Repr

/-- `extractEmailAddress`: the primary e-mail when its id is set and found,
otherwise the first e-mail, otherwise null. -/
def extractEmailAddress (user : ClerkWebhookUser) : Option String :=
  if user.emailAddresses.isEmpty then none
  else
    match user.primaryEmailAddressId with
    | some pid =>
      match user.emailAddresses.find? (fun e => e.1 == pid) with
      | some primary => some primary.2
      | none => user.emailAddresses.head?.map Prod.snd
    | none => user.emailAddresses.head?.map Prod.snd

/-- The character class `[a-z0-9_-]` kept by the normalisation regex. -/
def isAllowedChar (c : Char) : Bool :=
  ('a' ≤ c && c ≤ 'z') || ('0' ≤ c && c ≤ '9') || c == '_' || c == '-'

/-- The global replace of the regex `-+` by a single dash: collapse each
run of dashes to one dash. -/
def collapseDashes : List Char → List Char
  | [] => []
  | [c] => [c]
  | c :: d :: rest =>
    if c == '-' && d == '-' then collapseDashes (d :: rest)
    else c :: collapseDashes (d :: rest)

/-- `.replace(/^-|-$/g, "")`: drop one leading and one trailing dash (the
input has no dash runs, `collapseDashes` already ran). -/
def trimEdgeDashes (l : List Char) : List Char :=
  let l1 := match l with
    | '-' :: rest => rest
    | other => other
  if l1.getLast? == some '-' then l1.dropLast else l1

/-- JavaScript `s.slice(-n)`: the last `n` characters. -/
def takeLastChars (n : Nat) (l : List Char) : List Char :=
  (l.reverse.take n).reverse

/-- `normaliseUsername` of the webhook handler: the initial handle is the
provider username, else the local part of the e-mail, else the provider id;
lowercased, non-`[a-z0-9_-]` characters replaced by dashes, dash runs
collapsed, edge dashes trimmed, empty replaced by `user-` plus the id tail,
short handles padded from the id's alphanumerics, capped at 64. -/
def normaliseUsername (user : ClerkWebhookUser) : String :=
  let email := extractEmailAddress user
  let initial : String :=
    match user.username with
    | some u => u
    | none =>
      match email with
      | some e => String.mk (e.data.takeWhile (fun c => !(c == '@')))
      | none => user.id
  let base := trimEdgeDashes (collapseDashes
    ((initial.data.map Char.toLower).map (fun c => if isAllowedChar c then c else '-')))
  let username := if base.isEmpty
    then "user-".data ++ takeLastChars 6 user.id.data
    else base
  let username2 := if username.length < 4
    then username ++ (user.id.data.filter Char.isAlphanum).take 4
    else username
  let username3 := if 64 < username2.length then username2.take 64 else username2
  String.mk username3

/-- The `while (username.length < 4)` loop of `upsertUser`: each round
appends a dash and one `randomUUID().slice(0, 4)` value drawn from
`padSuffixes`. -/
def padUsernameLoop : List String → List Char → List Char
  | [], u => u
  | s :: rest, u =>
    if u.length < 4 then padUsernameLoop rest (u ++ ('-' :: s.data)) else u

/-- The username stored by the webhook `upsertUser`: the padded
`normaliseUsername` result, or on a unique violation the fallback
`${baseUsername}-${randomUUID().slice(0, 6)}`.slice(0, 64)`. -/
def upsertUserStoredUsername (user : ClerkWebhookUser)
    (padSuffixes : List String) (collision : Bool) (uuid6 : String) : String :=
  let baseUsername := normaliseUsername user
  let username := String.mk (padUsernameLoop padSuffixes baseUsername.data)
  if collision then String.mk ((baseUsername.data ++ '-' :: uuid6.data).take 64)
  else username

/-- The username stored by `resolveUser` on first authentication
(`src` trpc context, lines 105-155): the raw
`clerkUser.username ?? clerkUser.primaryEmailAddress?.emailAddress ?? clerkUser.id`,
or on a unique violation `${candidateUsername}-${randomUUID().slice(0, 6)}`;
no normalisation and no length bound is applied on this path. -/
def resolveUserStoredUsername (clerkUsername : Option String)
    (clerkPrimaryEmail : Option String) (clerkUserId : String)
    (collision : Bool) (uuid6 : String) : String :=
  let candidateUsername :=
    match clerkUsername with
    | some u => u
    | none =>
      match clerkPrimaryEmail with
      | some e => e
      | none => clerkUserId
  if collision then candidateUsername ++ "-" ++ uuid6
  else candidateUsername

/-- Client-side message entry of `RealTimeMessages`
(`src/components/chat/real-time-messages.tsx`). -/
structure ClientMessage where
  id : String
  content : String
  senderId : String
  senderUsername : String
deriving DecidableEq, Repr

/-- `msg.id.startsWith("optimistic-")`: locally synthesized placeholder ids. -/
def isOptimisticId (s : String) : Bool :=
  "optimistic-".data.isPrefixOf s.data

/-- The placeholder-match predicate of `handleNewMessage`: optimistic id,
same content and same sender id as the incoming event. -/
def matchesPlaceholder (event m : ClientMessage) : Bool :=
  isOptimisticId m.id && m.content == event.content && m.senderId == event.senderId

/-- `handleNewMessage` (real-time-messages.tsx, lines 149-185): drop the
event when its id is already present, otherwise replace the first matching
optimistic placeholder, otherwise append. -/
def handleNewMessage (event : ClientMessage) (prev : List ClientMessage) :
    List ClientMessage :=
  if prev.any (fun m => m.id == event.id) then prev
  else
    match prev.findIdx? (matchesPlaceholder event) with
    | some optimisticIndex => prev.set optimisticIndex event
    | none => prev ++ [event]

/-- The full descending, non-deleted, sender-joined message list of a
thread: what `list` pages through and `getLatest` takes its prefix of. -/
def messagesFullDesc (db : DB) (threadId : Nat) : List MessageRow :=
  sortByLe msgDescLe
    (db.messages.filter (fun m => baseCondition threadId m && senderJoin db m))

theorem filter_pairLt_eq_suffix {L P R : List MessageRow} {k : Nat × Nat}
    (hL : L = P ++ R) (hP : P ≠ [])
    (hk : msgKey (P.getLast hP) = k)
    (hpair : L.Pairwise (fun a b => pairLt (msgKey b) (msgKey a) = true)) :
    L.filter (fun m => pairLt (msgKey m) k) = R := by
  subst hk
  subst hL
  exact filter_pairLt_getLast hP hpair

/-- Sorting a message list with distinct ids gives a strictly descending
key sequence. -/
theorem strict_sorted_sortByLe (l : List MessageRow)
    (hn : (l.map MessageRow.id).Nodup) :
    (sortByLe msgDescLe l).Pairwise
      (fun a b => pairLt (msgKey b) (msgKey a) = true) := by
  apply pairwise_strict_of_sorted
    (pairwise_sortByLe msgDescLe msgDescLe_total msgDescLe_trans l)
  have hperm : ((sortByLe msgDescLe l).map MessageRow.id).Perm
      (l.map MessageRow.id) := (perm_sortByLe msgDescLe l).map _
  exact hperm.nodup_iff.mpr hn

theorem nodup_ids_filter {p : MessageRow → Bool} {l : List MessageRow}
    (h : (l.map MessageRow.id).Nodup) :
    ((l.filter p).map MessageRow.id).Nodup :=
  ((List.filter_sublist l).map MessageRow.id).nodup h

/-- The message query with a cursor is the cursor filter applied to the
sorted full list: filtering commutes with the deterministic sort. -/
theorem messagesQueryDesc_eq_filter (db : DB) (threadId : Nat)
    (cursor : Option Cursor)
    (hnodup : (db.messages.map MessageRow.id).Nodup) :
    messagesQueryDesc db threadId cursor =
      (messagesFullDesc db threadId).filter (cursorPred cursor) := by
  have hfilter : db.messages.filter
      (fun m => baseCondition threadId m && cursorPred cursor m && senderJoin db m)
      = (db.messages.filter
          (fun m => baseCondition threadId m && senderJoin db m)).filter
          (cursorPred cursor) := by
    rw [List.filter_filter]
    apply List.filter_congr
    intro m _
    cases baseCondition threadId m <;> cases cursorPred cursor m <;>
      cases senderJoin db m <;> rfl
  have hperm : (messagesQueryDesc db threadId cursor).Perm
      ((messagesFullDesc db threadId).filter (cursorPred cursor)) := by
    unfold messagesQueryDesc
    rw [hfilter]
    exact (perm_sortByLe msgDescLe _).trans
      ((List.Perm.filter (cursorPred cursor)
        (perm_sortByLe msgDescLe _)).symm)
  have hstrict1 : (messagesQueryDesc db threadId cursor).Pairwise
      (fun a b => pairLt (msgKey b) (msgKey a) = true) := by
    unfold messagesQueryDesc
    exact strict_sorted_sortByLe _ (nodup_ids_filter hnodup)
  have hstrict2 : ((messagesFullDesc db threadId).filter
      (cursorPred cursor)).Pairwise
      (fun a b => pairLt (msgKey b) (msgKey a) = true) := by
    exact List.Pairwise.sublist (List.filter_sublist _)
      (strict_sorted_sortByLe _ (nodup_ids_filter hnodup))
  exact eq_of_perm_of_pairwise_asymm (fun a b h1 h2 => pairLt_asymm h1 h2)
    _ _ hperm hstrict1 hstrict2

/-- The body of `messagesRouter.list` after both guards pass, expressed as a
function of the remaining (cursor-filtered) descending list. -/
def pageOf (R : List MessageRow) (limit : Nat) : Except TRPCErrorCode ListOutput :=
  let messageList := R.take (limit + 1)
  let hasMore := decide (limit < messageList.length)
  let trimmedMessages := if hasMore then messageList.dropLast else messageList
  .ok ⟨trimmedMessages.reverse,
    if hasMore && !trimmedMessages.isEmpty then
      match trimmedMessages.getLast? with
      | some m => some ⟨m.id, m.createdAt⟩
      | none => none
    else none⟩

theorem messagesList_eq_pageOf (db : DB) (callerId threadId limit : Nat)
    (cursor : Option Cursor)
    (hnodup : (db.messages.map MessageRow.id).Nodup)
    (hthread : threadExists db threadId = true)
    (hpart : isParticipant db threadId callerId = true) :
    messagesList db callerId threadId limit cursor =
      pageOf ((messagesFullDesc db threadId).filter (cursorPred cursor)) limit := by
  unfold messagesList pageOf
  rw [messagesQueryDesc_eq_filter db threadId cursor hnodup]
  simp [hthread, hpart]

theorem pageOf_small {R : List MessageRow} {limit : Nat}
    (h : R.length ≤ limit) :
    pageOf R limit = .ok ⟨R.reverse, none⟩ := by
  unfold pageOf
  have htake : R.take (limit + 1) = R :=
    List.take_of_length_le (Nat.le_succ_of_le h)
  rw [htake]
  have hhm : decide (limit < R.length) = false := by
    simp
    omega
  simp [hhm]

theorem pageOf_big {R : List MessageRow} {limit : Nat}
    (hlt : limit < R.length) (hlimit : 1 ≤ limit) :
    ∃ mlast, (R.take limit).getLast? = some mlast ∧
      pageOf R limit = .ok ⟨(R.take limit).reverse, some ⟨mlast.id, mlast.createdAt⟩⟩ := by
  unfold pageOf
  have hlen : (R.take (limit + 1)).length = limit + 1 := by
    rw [List.length_take]
    omega
  have hhm : decide (limit < (R.take (limit + 1)).length) = true := by
    rw [hlen]
    simp
  have htrim : (R.take (limit + 1)).dropLast = R.take limit := by
    rw [List.dropLast_eq_take, hlen, List.take_take]
    congr 1
    omega
  have hne : R.take limit ≠ [] := by
    have hlen' : (R.take limit).length = limit := by
      rw [List.length_take]
      omega
    intro hcon
    rw [hcon] at hlen'
    simp at hlen'
    omega
  have hlast := List.getLast?_eq_getLast (R.take limit) hne
  refine ⟨(R.take limit).getLast hne, hlast, ?_⟩
  have hempty : (R.take limit).isEmpty = false := by
    cases hcase : R.take limit with
    | nil => exact absurd hcase hne
    | cons a l => rfl
  simp only [hhm, if_true, htrim, hempty, hlast, Bool.not_false, Bool.and_self]

/-- Repeatedly call `messagesRouter.list`, feeding each returned
`nextCursor` back in, until it is null (`fuel` bounds the number of calls). -/
def collectPages (db : DB) (callerId threadId limit : Nat) :
    Option Cursor → Nat → List (List MessageRow)
  | _, 0 => []
  | cursor, fuel + 1 =>
    match messagesList db callerId threadId limit cursor with
    | .error _ => []
    | .ok out =>
      match out.nextCursor with
      | none => [out.messages]
      | some c => out.messages :: collectPages db callerId threadId limit (some c) fuel

/-- The pages of a full pagination run, concatenated oldest page first. -/
def paginateAll (db : DB) (callerId threadId limit fuel : Nat) : List MessageRow :=
  ((collectPages db callerId threadId limit none fuel).reverse).flatten

theorem flatten_reverse_pages {α : Type} :
    ∀ pages : List (List α),
      (pages.reverse).flatten = ((pages.map List.reverse).flatten).reverse := by
  intro pages
  induction pages with
  | nil => rfl
  | cons p ps ih =>
    simp only [List.reverse_cons, List.flatten_append, List.map_cons,
      List.flatten_cons, List.reverse_append, List.reverse_reverse, ih]
    simp

/-- Each pagination step consumes exactly the next `limit` rows of the
remaining suffix of the descending full list, so the concatenation of the
descending pages is that suffix. -/
theorem collectPages_go (db : DB) (callerId threadId limit : Nat)
    (hnodup : (db.messages.map MessageRow.id).Nodup)
    (hthread : threadExists db threadId = true)
    (hpart : isParticipant db threadId callerId = true)
    (hlimit : 1 ≤ limit) :
    ∀ (fuel : Nat) (cursor : Option Cursor) (P R : List MessageRow),
      (messagesFullDesc db threadId).filter (cursorPred cursor) = R →
      messagesFullDesc db threadId = P ++ R →
      R.length ≤ fuel →
      ((collectPages db callerId threadId limit cursor fuel).map
        List.reverse).flatten = R := by
  intro fuel
  induction fuel with
  | zero =>
    intro cursor P R hfilt hsplit hlen
    have hR : R = [] := List.length_eq_zero.mp (Nat.le_zero.mp hlen)
    subst hR
    rfl
  | succ fuel ih =>
    intro cursor P R hfilt hsplit hlen
    have hpage := messagesList_eq_pageOf db callerId threadId limit cursor
      hnodup hthread hpart
    rw [hfilt] at hpage
    by_cases hsize : R.length ≤ limit
    · rw [pageOf_small hsize] at hpage
      simp only [collectPages, hpage]
      simp
    · push_neg at hsize
      obtain ⟨mlast, hml, heq⟩ := pageOf_big hsize hlimit
      rw [heq] at hpage
      have htne : R.take limit ≠ [] := by
        have hlen' : (R.take limit).length = limit := by
          rw [List.length_take]
          omega
        intro hcon
        rw [hcon] at hlen'
        simp at hlen'
        omega
      have hmem_last : P ++ R.take limit ≠ [] := by
        intro hcon
        rcases List.append_eq_nil.mp hcon with ⟨_, h2⟩
        exact htne h2
      have hstrict : (messagesFullDesc db threadId).Pairwise
          (fun a b => pairLt (msgKey b) (msgKey a) = true) := by
        unfold messagesFullDesc
        exact strict_sorted_sortByLe _ (nodup_ids_filter hnodup)
      have hsplit2 : messagesFullDesc db threadId =
          (P ++ R.take limit) ++ R.drop limit := by
        rw [hsplit, List.append_assoc, List.take_append_drop]
      have hemp : (R.take limit).isEmpty = false := by
        cases hcase : R.take limit with
        | nil => exact absurd hcase htne
        | cons a l => rfl
      have hgetlast : (P ++ R.take limit).getLast hmem_last = mlast := by
        rw [List.getLast_append]
        have hgl := List.getLast?_eq_getLast (R.take limit) htne
        rw [hml] at hgl
        have hval : mlast = (R.take limit).getLast htne := Option.some.inj hgl
        simp only [hemp]
        exact hval.symm
      have hkey : msgKey ((P ++ R.take limit).getLast hmem_last) =
          (mlast.createdAt, mlast.id) := by
        rw [hgetlast]
        rfl
      have hnext : (messagesFullDesc db threadId).filter
          (fun m => pairLt (msgKey m) (mlast.createdAt, mlast.id)) = R.drop limit :=
        filter_pairLt_eq_suffix hsplit2 hmem_last hkey hstrict
      have hfilt' : (messagesFullDesc db threadId).filter
          (cursorPred (some ⟨mlast.id, mlast.createdAt⟩)) = R.drop limit := hnext
      have hlen' : (R.drop limit).length ≤ fuel := by
        rw [List.length_drop]
        omega
      have hrec := ih (some ⟨mlast.id, mlast.createdAt⟩) (P ++ R.take limit)
        (R.drop limit) hfilt' hsplit2 hlen'
      simp only [collectPages, hpage]
      simp only [List.map_cons, List.flatten_cons, List.reverse_reverse, hrec]
      exact List.take_append_drop limit R


/-- C1: for every thread and participant caller, iterating `messages.list`
from no cursor through each returned `nextCursor` yields pages that,
concatenated oldest page first, are exactly the thread's non-deleted
messages (no duplicates, no gaps) in strictly increasing `(createdAt, id)`
order; every non-null next cursor carries the key of the oldest row of its
page, and it is non-null only when a strictly older matching row exists. -/
theorem messagesList_pagination_tiling (db : DB)
    (callerId threadId limit fuel : Nat)
    (hnodup : (db.messages.map MessageRow.id).Nodup)
    (hfk : ∀ m ∈ db.messages, senderJoin db m = true)
    (hthread : threadExists db threadId = true)
    (hpart : isParticipant db threadId callerId = true)
    (hlimit : 1 ≤ limit)
    (hfuel : db.messages.length ≤ fuel) :
    (paginateAll db callerId threadId limit fuel).Perm
        (db.messages.filter (baseCondition threadId))
    ∧ (paginateAll db callerId threadId limit fuel).Pairwise
        (fun a b => pairLt (msgKey a) (msgKey b) = true)
    ∧ ∀ (cursor : Option Cursor) (out : ListOutput) (c : Cursor),
        messagesList db callerId threadId limit cursor = .ok out →
        out.nextCursor = some c →
        (∃ h : out.messages ≠ [],
          c.id = (out.messages.head h).id ∧
            c.createdAt = (out.messages.head h).createdAt)
        ∧ ∃ m ∈ db.messages.filter (baseCondition threadId),
            pairLt (msgKey m) (c.createdAt, c.id) = true := by
  have hLperm : (messagesFullDesc db threadId).Perm
      (db.messages.filter (baseCondition threadId)) := by
    have hFeq : db.messages.filter
        (fun m => baseCondition threadId m && senderJoin db m)
        = db.messages.filter (baseCondition threadId) :=
      List.filter_congr (fun m hm => by rw [hfk m hm, Bool.and_true])
    unfold messagesFullDesc
    rw [hFeq]
    exact perm_sortByLe msgDescLe _
  have hstrict : (messagesFullDesc db threadId).Pairwise
      (fun a b => pairLt (msgKey b) (msgKey a) = true) := by
    unfold messagesFullDesc
    exact strict_sorted_sortByLe _ (nodup_ids_filter hnodup)
  have hfilt_none : (messagesFullDesc db threadId).filter (cursorPred none)
      = messagesFullDesc db threadId :=
    List.filter_eq_self.mpr (fun m _ => rfl)
  have hLlen : (messagesFullDesc db threadId).length ≤ fuel := by
    have h1 : (messagesFullDesc db threadId).length =
        (db.messages.filter
          (fun m => baseCondition threadId m && senderJoin db m)).length :=
      (perm_sortByLe msgDescLe _).length_eq
    have h2 := List.length_filter_le
      (fun m => baseCondition threadId m && senderJoin db m) db.messages
    omega
  have hgo := collectPages_go db callerId threadId limit hnodup hthread hpart
    hlimit fuel none [] (messagesFullDesc db threadId) hfilt_none
    (List.nil_append _).symm hLlen
  have hpag : paginateAll db callerId threadId limit fuel =
      (messagesFullDesc db threadId).reverse := by
    unfold paginateAll
    rw [flatten_reverse_pages, hgo]
  refine ⟨?_, ?_, ?_⟩
  · rw [hpag]
    exact (List.reverse_perm _).trans hLperm
  · rw [hpag]
    exact List.pairwise_reverse.mpr hstrict
  · intro cursor out c hok hnc
    have hpage := messagesList_eq_pageOf db callerId threadId limit cursor
      hnodup hthread hpart
    rw [hok] at hpage
    by_cases hsize : ((messagesFullDesc db threadId).filter
        (cursorPred cursor)).length ≤ limit
    · rw [pageOf_small hsize] at hpage
      have hout : out = ⟨((messagesFullDesc db threadId).filter
          (cursorPred cursor)).reverse, none⟩ := by
        injection hpage
      rw [hout] at hnc
      simp at hnc
    · push_neg at hsize
      obtain ⟨mlast, hml, heq⟩ := pageOf_big hsize hlimit
      rw [heq] at hpage
      have hout : out = ⟨(((messagesFullDesc db threadId).filter
          (cursorPred cursor)).take limit).reverse,
          some ⟨mlast.id, mlast.createdAt⟩⟩ := by
        injection hpage
      subst hout
      have hc : c = ⟨mlast.id, mlast.createdAt⟩ := (Option.some.inj hnc).symm
      subst hc
      have htne : ((messagesFullDesc db threadId).filter
          (cursorPred cursor)).take limit ≠ [] := by
        have hlen' : (((messagesFullDesc db threadId).filter
            (cursorPred cursor)).take limit).length = limit := by
          rw [List.length_take]
          omega
        intro hcon
        rw [hcon] at hlen'
        simp at hlen'
        omega
      have hlastval : (((messagesFullDesc db threadId).filter
          (cursorPred cursor)).take limit).getLast htne = mlast := by
        have hgl := List.getLast?_eq_getLast _ htne
        rw [hml] at hgl
        exact (Option.some.inj hgl).symm
      have hstrictR : (((messagesFullDesc db threadId).filter
          (cursorPred cursor))).Pairwise
          (fun a b => pairLt (msgKey b) (msgKey a) = true) :=
        List.Pairwise.sublist (List.filter_sublist _) hstrict
      constructor
      · have hne : ((((messagesFullDesc db threadId).filter
            (cursorPred cursor)).take limit).reverse : List MessageRow) ≠ [] := by
          simpa [List.reverse_eq_nil_iff] using htne
        refine ⟨hne, ?_, ?_⟩
        · show mlast.id = _
          rw [List.head_reverse, hlastval]
        · show mlast.createdAt = _
          rw [List.head_reverse, hlastval]
      · have hMLlen : (((messagesFullDesc db threadId).filter
            (cursorPred cursor)).take (limit + 1)).length = limit + 1 := by
          rw [List.length_take]
          omega
        have hMLne : ((messagesFullDesc db threadId).filter
            (cursorPred cursor)).take (limit + 1) ≠ [] := by
          intro hcon
          rw [hcon] at hMLlen
          simp at hMLlen
        have hdropeq : (((messagesFullDesc db threadId).filter
            (cursorPred cursor)).take (limit + 1)).dropLast =
            ((messagesFullDesc db threadId).filter (cursorPred cursor)).take limit := by
          rw [List.dropLast_eq_take, hMLlen, List.take_take]
          congr 1
          omega
        have hMLsplit : (((messagesFullDesc db threadId).filter
            (cursorPred cursor)).take limit) ++
            [(((messagesFullDesc db threadId).filter
              (cursorPred cursor)).take (limit + 1)).getLast hMLne] =
            ((messagesFullDesc db threadId).filter
              (cursorPred cursor)).take (limit + 1) := by
          rw [← hdropeq]
          exact List.dropLast_append_getLast hMLne
        have hstrictML : ((((messagesFullDesc db threadId).filter
            (cursorPred cursor))).take (limit + 1)).Pairwise
            (fun a b => pairLt (msgKey b) (msgKey a) = true) :=
          List.Pairwise.sublist (List.take_sublist _ _) hstrictR
        rw [← hMLsplit] at hstrictML
        rcases List.pairwise_append.mp hstrictML with ⟨_, _, hrel⟩
        refine ⟨(((messagesFullDesc db threadId).filter
            (cursorPred cursor)).take (limit + 1)).getLast hMLne, ?_, ?_⟩
        · have hmem1 : (((messagesFullDesc db threadId).filter
              (cursorPred cursor)).take (limit + 1)).getLast hMLne ∈
              ((messagesFullDesc db threadId).filter (cursorPred cursor)).take
                (limit + 1) := List.getLast_mem hMLne
          have hmem2 : (((messagesFullDesc db threadId).filter
              (cursorPred cursor)).take (limit + 1)).getLast hMLne ∈
              (messagesFullDesc db threadId).filter (cursorPred cursor) :=
            List.take_subset _ _ hmem1
          have hmem3 : (((messagesFullDesc db threadId).filter
              (cursorPred cursor)).take (limit + 1)).getLast hMLne ∈
              messagesFullDesc db threadId :=
            (List.mem_filter.mp hmem2).1
          exact hLperm.mem_iff.mp hmem3
        · have hmemlast : mlast ∈ ((messagesFullDesc db threadId).filter
              (cursorPred cursor)).take limit := by
            rw [← hlastval]
            exact List.getLast_mem htne
          have := hrel mlast hmemlast
            ((((messagesFullDesc db threadId).filter
              (cursorPred cursor)).take (limit + 1)).getLast hMLne)
            (List.mem_singleton_self _)
          exact this

/-- Concrete store used by the witnesses: two users, one thread with both
as participants, four messages (one soft-deleted) with a timestamp tie. -/
def dbW : DB :=
  { users := [⟨1, "c1", "alice"⟩, ⟨2, "c2", "bob"⟩],
    threads := [⟨10, none, 0, 3⟩],
    participants := [⟨10, 1, 0⟩, ⟨10, 2, 0⟩],
    messages :=
      [ ⟨100, 10, 1, "m1", 1, 1, none, false⟩,
        ⟨101, 10, 2, "m2", 2, 2, none, false⟩,
        ⟨102, 10, 1, "m3", 2, 2, none, true⟩,
        ⟨103, 10, 2, "m4", 3, 3, none, false⟩ ] }

/-- C1 witness: the tiling theorem applied to the concrete store `dbW`
(caller 1, thread 10, page size 1, four calls of fuel). -/
theorem messagesList_pagination_tiling_witness :
    (paginateAll dbW 1 10 1 4).Perm (dbW.messages.filter (baseCondition 10)) :=
  (messagesList_pagination_tiling dbW 1 10 1 4 (by decide) (by decide)
    (by decide) (by decide) (by decide) (by decide)).1

theorem mem_messagesFullDesc {db : DB} {threadId : Nat} {m : MessageRow}
    (hm : m ∈ messagesFullDesc db threadId) :
    m ∈ db.messages ∧ m.threadId = threadId ∧ m.isDeleted = false := by
  unfold messagesFullDesc at hm
  have hmem := (perm_sortByLe msgDescLe _).mem_iff.mp hm
  rcases List.mem_filter.mp hmem with ⟨hmsg, hcond⟩
  rw [Bool.and_eq_true] at hcond
  rcases hcond with ⟨hbase, _⟩
  unfold baseCondition at hbase
  rw [Bool.and_eq_true] at hbase
  rcases hbase with ⟨h1, h2⟩
  refine ⟨hmsg, ?_, ?_⟩
  · simpa using h1
  · simpa using h2

theorem pageOf_messages_subset {R : List MessageRow} {limit : Nat}
    {out : ListOutput} (h : pageOf R limit = .ok out) :
    ∀ m ∈ out.messages, m ∈ R := by
  unfold pageOf at h
  have hout := Except.ok.inj h
  intro m hm
  rw [← hout] at hm
  simp only [List.mem_reverse] at hm
  have hsub : (if decide (limit < (R.take (limit + 1)).length) = true
      then (R.take (limit + 1)).dropLast
      else R.take (limit + 1)).Sublist (R.take (limit + 1)) := by
    by_cases hc : decide (limit < (R.take (limit + 1)).length) = true
    · rw [if_pos hc]
      exact List.dropLast_sublist _
    · rw [if_neg hc]
  exact List.take_subset _ _ (hsub.subset hm)

/-- C8: `messages.list` never returns a soft-deleted message, and
`messages.getLatest` applies the same non-deleted filter, the same guard
outcomes, and the same `(createdAt desc, id desc)` ordering before
reversing to chronological order. -/
theorem messagesList_getLatest_nonDeleted (db : DB)
    (callerId threadId limit lim2 : Nat) (cursor : Option Cursor)
    (hnodup : (db.messages.map MessageRow.id).Nodup) :
    (∀ out, messagesList db callerId threadId limit cursor = .ok out →
      ∀ m ∈ out.messages, m.isDeleted = false)
    ∧ (∀ out, messagesGetLatest db callerId threadId lim2 = .ok out →
        out = ((messagesFullDesc db threadId).take lim2).reverse
        ∧ (∀ m ∈ out, m.isDeleted = false)
        ∧ out.Pairwise (fun a b => pairLt (msgKey a) (msgKey b) = true))
    ∧ (∀ e, messagesGetLatest db callerId threadId lim2 = .error e ↔
        messagesList db callerId threadId limit cursor = .error e) := by
  by_cases hth : threadExists db threadId = true
  · by_cases hpa : isParticipant db threadId callerId = true
    · have hlist_ok := messagesList_eq_pageOf db callerId threadId limit cursor
        hnodup hth hpa
      have hlat_ok : messagesGetLatest db callerId threadId lim2 =
          .ok (((messagesFullDesc db threadId).take lim2).reverse) := by
        unfold messagesGetLatest messagesFullDesc
        simp [hth, hpa]
      have hstrict : (messagesFullDesc db threadId).Pairwise
          (fun a b => pairLt (msgKey b) (msgKey a) = true) := by
        unfold messagesFullDesc
        exact strict_sorted_sortByLe _ (nodup_ids_filter hnodup)
      refine ⟨?_, ?_, ?_⟩
      · intro out hok m hm
        rw [hlist_ok] at hok
        have hmR := pageOf_messages_subset hok m hm
        have hmL : m ∈ messagesFullDesc db threadId :=
          (List.mem_filter.mp hmR).1
        exact (mem_messagesFullDesc hmL).2.2
      · intro out hok
        rw [hlat_ok] at hok
        have hout := Except.ok.inj hok
        subst hout
        refine ⟨rfl, ?_, ?_⟩
        · intro m hm
          rw [List.mem_reverse] at hm
          have hmL : m ∈ messagesFullDesc db threadId :=
            List.take_subset _ _ hm
          exact (mem_messagesFullDesc hmL).2.2
        · exact List.pairwise_reverse.mpr
            (List.Pairwise.sublist (List.take_sublist _ _) hstrict)
      · intro e
        rw [hlat_ok, hlist_ok]
        unfold pageOf
        simp
    · have hpa' : isParticipant db threadId callerId = false :=
        Bool.eq_false_iff.mpr hpa
      have hlist : messagesList db callerId threadId limit cursor =
          .error .forbidden := by
        unfold messagesList
        simp [hth, hpa']
      have hlat : messagesGetLatest db callerId threadId lim2 =
          .error .forbidden := by
        unfold messagesGetLatest
        simp [hth, hpa']
      refine ⟨?_, ?_, ?_⟩
      · intro out hok
        rw [hlist] at hok
        simp at hok
      · intro out hok
        rw [hlat] at hok
        simp at hok
      · intro e
        rw [hlat, hlist]
        simp
  · have hth' : threadExists db threadId = false := Bool.eq_false_iff.mpr hth
    have hlist : messagesList db callerId threadId limit cursor =
        .error .notFound := by
      unfold messagesList
      simp [hth']
    have hlat : messagesGetLatest db callerId threadId lim2 =
        .error .notFound := by
      unfold messagesGetLatest
      simp [hth']
    refine ⟨?_, ?_, ?_⟩
    · intro out hok
      rw [hlist] at hok
      simp at hok
    · intro out hok
      rw [hlat] at hok
      simp at hok
    · intro e
      rw [hlat, hlist]
      simp

/-- C8 witness: on `dbW`, `getLatest` with limit 2 returns exactly the
reversed 2-prefix of the descending non-deleted list (messages 101, 103;
the soft-deleted 102 is absent). -/
theorem messagesList_getLatest_nonDeleted_witness :
    ([⟨101, 10, 2, "m2", 2, 2, none, false⟩,
      ⟨103, 10, 2, "m4", 3, 3, none, false⟩] : List MessageRow)
      = ((messagesFullDesc dbW 10).take 2).reverse :=
  ((messagesList_getLatest_nonDeleted dbW 1 10 1 2 none (by decide)).2.1
    [⟨101, 10, 2, "m2", 2, 2, none, false⟩,
     ⟨103, 10, 2, "m4", 3, 3, none, false⟩] (by rfl)).1

/-- C2 counterexample: on a store with no thread `10`, `threads.getById`
returns `Forbidden`, not the `NotFound` the claim asserts for all five
operations — its participation check runs before the existence check. -/
def dbC2 : DB :=
  { users := [⟨1, "c1", "alice"⟩], threads := [], participants := [],
    messages := [] }

theorem threadsGetById_nonexistent_forbidden :
    threadsGetById dbC2 1 10 = .error .forbidden
    ∧ threadsGetById dbC2 1 10 ≠ .error .notFound := by
  constructor
  · rfl
  · intro h
    rw [show threadsGetById dbC2 1 10 = .error .forbidden from rfl] at h
    exact absurd (Except.error.inj h) (by decide)

/-- C2 (amended): a nonexistent thread makes `messages.list`,
`messages.send` and `messages.getLatest` fail with `NotFound` (their thread
check precedes the participation check); `threads.getById` and
`threads.addParticipant` instead check participation first, so under
referential integrity of the participants table they fail with `Forbidden`
on a nonexistent thread. -/
theorem nonexistent_thread_errors (db : DB)
    (callerId threadId userId limit lim2 : Nat) (cursor : Option Cursor)
    (content : String) (newId now : Nat)
    (hth : threadExists db threadId = false) :
    messagesList db callerId threadId limit cursor = .error .notFound
    ∧ messagesSend db callerId threadId content newId now = .error .notFound
    ∧ messagesGetLatest db callerId threadId lim2 = .error .notFound
    ∧ ((∀ p ∈ db.participants, ∃ th ∈ db.threads, th.id = p.threadId) →
        threadsGetById db callerId threadId = .error .forbidden
        ∧ threadsAddParticipant db callerId threadId userId now = .error .forbidden) := by
  refine ⟨?_, ?_, ?_, ?_⟩
  · unfold messagesList
    simp [hth]
  · unfold messagesSend
    simp [hth]
  · unfold messagesGetLatest
    simp [hth]
  · intro hfk
    have hpart_false : isParticipant db threadId callerId = false := by
      by_contra h
      rw [Bool.not_eq_false] at h
      unfold isParticipant at h
      rw [List.any_eq_true] at h
      obtain ⟨p, hp, hcond⟩ := h
      rw [Bool.and_eq_true] at hcond
      have hpt : p.threadId = threadId := by simpa using hcond.1
      obtain ⟨th, hthmem, hid⟩ := hfk p hp
      have hex : threadExists db threadId = true := by
        unfold threadExists
        rw [List.any_eq_true]
        exact ⟨th, hthmem, by simp [hid, hpt]⟩
      rw [hth] at hex
      simp at hex
    constructor
    · unfold threadsGetById
      simp [hpart_false]
    · unfold threadsAddParticipant
      simp [hpart_false]

/-- C2 (amended) witness: the amended guard ordering applied to `dbC2`. -/
theorem nonexistent_thread_errors_witness :
    messagesSend dbC2 1 10 "hi" 99 0 = .error .notFound :=
  (nonexistent_thread_errors dbC2 1 10 2 5 1 none "hi" 99 0 (by decide)).2.1

/-- C4: a non-participant of an existing thread gets `Forbidden` from
`list`, `send` and `getLatest`; a caller who is not the sender of an
existing non-deleted message gets `Forbidden` from `edit` and `delete`
regardless of participation (errors return no new state, so the message is
unchanged). -/
theorem forbidden_guards (db : DB) (callerId threadId limit lim2 : Nat)
    (cursor : Option Cursor) (content : String) (newId now messageId : Nat)
    (m : MessageRow) :
    (threadExists db threadId = true →
      isParticipant db threadId callerId = false →
      messagesList db callerId threadId limit cursor = .error .forbidden
      ∧ messagesSend db callerId threadId content newId now = .error .forbidden
      ∧ messagesGetLatest db callerId threadId lim2 = .error .forbidden)
    ∧ (db.messages.find? (fun x => x.id == messageId) = some m →
        m.isDeleted = false → ¬(m.senderId = callerId) →
        messagesEdit db callerId messageId content now = .error .forbidden
        ∧ messagesDelete db callerId messageId now = .error .forbidden) := by
  constructor
  · intro hth hpa
    refine ⟨?_, ?_, ?_⟩
    · unfold messagesList
      simp [hth, hpa]
    · unfold messagesSend
      simp [hth, hpa]
    · unfold messagesGetLatest
      simp [hth, hpa]
  · intro hfind _ hsender
    have hs : (m.senderId == callerId) = false := by simp [hsender]
    constructor
    · unfold messagesEdit
      rw [hfind]
      simp [hs]
    · unfold messagesDelete
      rw [hfind]
      simp [hs]

/-- C4 witness: caller 3 is no participant of thread 10 of `dbW`, and
caller 2 does not own message 100. -/
theorem forbidden_guards_witness :
    (messagesList dbW 3 10 1 none = .error .forbidden
      ∧ messagesSend dbW 3 10 "x" 99 5 = .error .forbidden
      ∧ messagesGetLatest dbW 3 10 1 = .error .forbidden)
    ∧ (messagesEdit dbW 2 100 "y" 6 = .error .forbidden
      ∧ messagesDelete dbW 2 100 6 = .error .forbidden) :=
  ⟨(forbidden_guards dbW 3 10 1 1 none "x" 99 5 100
      ⟨100, 10, 1, "m1", 1, 1, none, false⟩).1 (by decide) (by decide),
   (forbidden_guards dbW 2 10 1 1 none "y" 99 6 100
      ⟨100, 10, 1, "m1", 1, 1, none, false⟩).2 (by decide) (by decide)
      (by decide)⟩

theorem find?_map_of_pred {p : MessageRow → Bool} {f : MessageRow → MessageRow}
    (hf : ∀ x, p (f x) = p x) :
    ∀ l : List MessageRow, (l.map f).find? p = (l.find? p).map f := by
  intro l
  induction l with
  | nil => rfl
  | cons a t ih =>
    by_cases hpa : p a = true
    · rw [List.map_cons, List.find?_cons_of_pos _ ((hf a).trans hpa),
        List.find?_cons_of_pos _ hpa]
      rfl
    · have hpa' : p a = false := Bool.eq_false_iff.mpr hpa
      rw [List.map_cons, List.find?_cons_of_neg _ (by rw [hf a, hpa']; simp),
        List.find?_cons_of_neg _ (by rw [hpa']; simp), ih]

/-- C7: a sender deleting an existing non-deleted message succeeds, sets
`isDeleted` and `updatedAt`, leaves the content untouched, and a second
delete of the same message fails with `BadRequest`. -/
theorem messagesDelete_idempotence (db : DB) (callerId messageId now now2 : Nat)
    (m : MessageRow)
    (hfind : db.messages.find? (fun x => x.id == messageId) = some m)
    (hsender : m.senderId = callerId)
    (hnotdel : m.isDeleted = false) :
    ∃ db', messagesDelete db callerId messageId now = .ok db'
      ∧ db'.messages.find? (fun x => x.id == messageId) =
          some { m with isDeleted := true, updatedAt := now }
      ∧ ({ m with isDeleted := true, updatedAt := now }).content = m.content
      ∧ messagesDelete db' callerId messageId now2 = .error .badRequest := by
  have hs : (m.senderId == callerId) = true := by simp [hsender]
  have hm_id : (m.id == messageId) = true := by
    have := List.find?_some hfind
    simpa using this
  have hpres : ∀ x : MessageRow,
      (((fun x => if x.id == messageId then
        { x with isDeleted := true, updatedAt := now } else x) x).id
          == messageId) = (x.id == messageId) := by
    intro x
    by_cases hx : (x.id == messageId) = true
    · simp [hx]
    · simp [hx]
  have hfind' : List.find? (fun x => x.id == messageId)
      (db.messages.map (fun x => if x.id == messageId then
        { x with isDeleted := true, updatedAt := now } else x)) =
      some { m with isDeleted := true, updatedAt := now } := by
    rw [find?_map_of_pred hpres db.messages, hfind]
    show some (if (m.id == messageId) = true then
      { m with isDeleted := true, updatedAt := now } else m) =
      some { m with isDeleted := true, updatedAt := now }
    rw [if_pos hm_id]
  refine ⟨{ db with messages := db.messages.map (fun x => if x.id == messageId then { x with isDeleted := true, updatedAt := now } else x) }, ?_, hfind', rfl, ?_⟩
  · unfold messagesDelete
    rw [hfind]
    simp [hs, hnotdel]
  · unfold messagesDelete
    rw [show ({ db with messages := db.messages.map (fun x => if x.id == messageId then { x with isDeleted := true, updatedAt := now } else x) } : DB).messages = db.messages.map (fun x => if x.id == messageId then { x with isDeleted := true, updatedAt := now } else x) from rfl]
    rw [hfind']
    simp [hs]

/-- C7 witness: caller 1 deletes message 100 of `dbW` twice. -/
theorem messagesDelete_idempotence_witness :
    ∃ db', messagesDelete dbW 1 100 7 = .ok db'
      ∧ db'.messages.find? (fun x => x.id == 100) =
          some { id := 100, threadId := 10, senderId := 1, content := "m1",
                 createdAt := 1, updatedAt := 7, editedAt := none, isDeleted := true }
      ∧ ({ id := 100, threadId := 10, senderId := 1, content := "m1",
           createdAt := 1, updatedAt := 7, editedAt := none,
           isDeleted := true } : MessageRow).content =
          ({ id := 100, threadId := 10, senderId := 1, content := "m1",
             createdAt := 1, updatedAt := 1, editedAt := none,
             isDeleted := false } : MessageRow).content
      ∧ messagesDelete db' 1 100 8 = .error .badRequest :=
  messagesDelete_idempotence dbW 1 100 7 8
    ⟨100, 10, 1, "m1", 1, 1, none, false⟩ (by decide) (by decide) (by decide)

theorem jsSetDedupGo_mem :
    ∀ (l seen : List Nat) (x : Nat),
      x ∈ jsSetDedupGo seen l ↔ (x ∈ l ∧ x ∉ seen) := by
  intro l
  induction l with
  | nil => simp [jsSetDedupGo]
  | cons y ys ih =>
    intro seen x
    by_cases hy : seen.contains y = true
    · rw [show jsSetDedupGo seen (y :: ys) = jsSetDedupGo seen ys by
        simp only [jsSetDedupGo]; rw [if_pos hy]]
      rw [ih seen x]
      have hymem : y ∈ seen := by simpa using hy
      constructor
      · rintro ⟨hx, hns⟩
        exact ⟨List.mem_cons_of_mem y hx, hns⟩
      · rintro ⟨hx, hns⟩
        rcases List.mem_cons.mp hx with rfl | hx
        · exact absurd hymem hns
        · exact ⟨hx, hns⟩
    · rw [show jsSetDedupGo seen (y :: ys) = y :: jsSetDedupGo (y :: seen) ys by
        simp only [jsSetDedupGo]; rw [if_neg hy]]
      have hyns : y ∉ seen := by simpa using hy
      rw [List.mem_cons, ih (y :: seen) x]
      constructor
      · rintro (rfl | ⟨hx, hns⟩)
        · exact ⟨List.mem_cons_self _ _, hyns⟩
        · exact ⟨List.mem_cons_of_mem y hx,
            fun hc => hns (List.mem_cons_of_mem y hc)⟩
      · rintro ⟨hx, hns⟩
        rcases List.mem_cons.mp hx with rfl | hx
        · exact Or.inl rfl
        · by_cases hxy : x = y
          · exact Or.inl hxy
          · refine Or.inr ⟨hx, ?_⟩
            intro hc
            rcases List.mem_cons.mp hc with rfl | hc
            · exact hxy rfl
            · exact hns hc

theorem jsSetDedupGo_nodup :
    ∀ (l seen : List Nat), (jsSetDedupGo seen l).Nodup := by
  intro l
  induction l with
  | nil => simp [jsSetDedupGo]
  | cons y ys ih =>
    intro seen
    by_cases hy : seen.contains y = true
    · rw [show jsSetDedupGo seen (y :: ys) = jsSetDedupGo seen ys by
        simp only [jsSetDedupGo]; rw [if_pos hy]]
      exact ih seen
    · rw [show jsSetDedupGo seen (y :: ys) = y :: jsSetDedupGo (y :: seen) ys by
        simp only [jsSetDedupGo]; rw [if_neg hy]]
      refine List.nodup_cons.mpr ⟨?_, ih (y :: seen)⟩
      intro hc
      exact ((jsSetDedupGo_mem ys (y :: seen) y).mp hc).2 (List.mem_cons_self _ _)

theorem jsSetDedup_mem (l : List Nat) (x : Nat) : x ∈ jsSetDedup l ↔ x ∈ l := by
  unfold jsSetDedup
  rw [jsSetDedupGo_mem]
  simp

theorem jsSetDedup_nodup (l : List Nat) : (jsSetDedup l).Nodup :=
  jsSetDedupGo_nodup l []

/-- The row count of `SELECT id FROM users WHERE id IN participantIds`
equals `participantIds.length` exactly when `participantIds` is
duplicate-free and every element is an existing user id. -/
theorem filter_contains_length_eq (db : DB) (P : List Nat)
    (hU : (db.users.map UserRow.id).Nodup) :
    (db.users.filter (fun u => P.contains u.id)).length = P.length
      ↔ (P.Nodup ∧ ∀ id ∈ P, id ∈ db.users.map UserRow.id) := by
  have hstep1 : ((db.users.map UserRow.id).filter (fun v => P.contains v)).length
      = (db.users.filter (fun u => P.contains u.id)).length := by
    rw [List.filter_map, List.length_map]
    rfl
  have hconv : (db.users.map UserRow.id).filter (fun v => P.contains v)
      = (db.users.map UserRow.id).filter (fun v => decide (v ∈ P)) := by
    apply List.filter_congr
    intro v _
    by_cases h : v ∈ P
    · simp [h]
    · simp [h]
  have hAnodup : ((db.users.map UserRow.id).filter
      (fun v => decide (v ∈ P))).Nodup := hU.filter _
  have hAcard : ((db.users.map UserRow.id).filter
      (fun v => decide (v ∈ P))).toFinset.card =
      ((db.users.map UserRow.id).filter (fun v => decide (v ∈ P))).length :=
    List.toFinset_card_of_nodup hAnodup
  have hAsub : ((db.users.map UserRow.id).filter
      (fun v => decide (v ∈ P))).toFinset ⊆ P.toFinset := by
    intro x hx
    rw [List.mem_toFinset] at hx
    rw [List.mem_toFinset]
    exact of_decide_eq_true (List.mem_filter.mp hx).2
  rw [← hstep1, hconv]
  constructor
  · intro hlen
    have hPcard : P.toFinset.card = P.length := by
      have h1 := Finset.card_le_card hAsub
      have h2 := List.toFinset_card_le P
      omega
    have hPnodup : P.Nodup := by
      rw [List.card_toFinset] at hPcard
      have hdedup : P.dedup = P :=
        (List.dedup_sublist P).eq_of_length hPcard
      rw [← hdedup]
      exact List.nodup_dedup P
    refine ⟨hPnodup, ?_⟩
    have hset : ((db.users.map UserRow.id).filter
        (fun v => decide (v ∈ P))).toFinset = P.toFinset := by
      apply Finset.eq_of_subset_of_card_le hAsub
      omega
    intro id hid
    have : id ∈ ((db.users.map UserRow.id).filter
        (fun v => decide (v ∈ P))).toFinset := by
      rw [hset, List.mem_toFinset]
      exact hid
    rw [List.mem_toFinset] at this
    exact (List.mem_filter.mp this).1
  · rintro ⟨hPnodup, hPsub⟩
    have hset : ((db.users.map UserRow.id).filter
        (fun v => decide (v ∈ P))).toFinset = P.toFinset := by
      apply Finset.Subset.antisymm hAsub
      intro x hx
      rw [List.mem_toFinset] at hx
      rw [List.mem_toFinset, List.mem_filter]
      exact ⟨hPsub x hx, decide_eq_true hx⟩
    have hPcard : P.toFinset.card = P.length := by
      rw [List.card_toFinset, List.dedup_eq_self.mpr hPnodup]
    have hcards := congrArg Finset.card hset
    omega

/-- C5 counterexample: in `dbW` every element of `[1, 1]` resolves to the
existing user 1, yet `threads.create` fails with `BadRequest`, because the
matched-row count (1) differs from `participantIds.length` (2). -/
theorem threadsCreate_duplicate_badRequest :
    (∀ id ∈ [1, 1], id ∈ dbW.users.map UserRow.id)
    ∧ threadsCreate dbW 1 none [1, 1] 50 0 = .error .badRequest := by
  constructor
  · decide
  · rfl

/-- C5 (amended): `threads.create` fails with `BadRequest` exactly when
`participantIds` has a duplicate or an element that resolves to no existing
user; on failure nothing is created (the error carries no state), and
otherwise the thread is created and returned. -/
theorem threadsCreate_validation (db : DB) (callerId : Nat)
    (name : Option String) (participantIds : List Nat) (newThreadId now : Nat)
    (hU : (db.users.map UserRow.id).Nodup) :
    (threadsCreate db callerId name participantIds newThreadId now =
        .error .badRequest
      ↔ ¬(participantIds.Nodup ∧
          ∀ id ∈ participantIds, id ∈ db.users.map UserRow.id))
    ∧ ((participantIds.Nodup ∧
        ∀ id ∈ participantIds, id ∈ db.users.map UserRow.id) →
        ∃ db', threadsCreate db callerId name participantIds newThreadId now =
          .ok (db', ⟨newThreadId, name, now, now⟩)
          ∧ db'.threads = db.threads ++ [⟨newThreadId, name, now, now⟩]) := by
  have hcount := filter_contains_length_eq db participantIds hU
  by_cases hc : (db.users.filter
      (fun u => participantIds.contains u.id)).length = participantIds.length
  · have hcb : ((db.users.filter
        (fun u => participantIds.contains u.id)).length
          == participantIds.length) = true := beq_iff_eq.mpr hc
    have hok : threadsCreate db callerId name participantIds newThreadId now =
        .ok ({ db with
          threads := db.threads ++ [⟨newThreadId, name, now, now⟩],
          participants := db.participants ++
            (jsSetDedup (participantIds ++ [callerId])).map
              (fun userId => ⟨newThreadId, userId, now⟩) },
          ⟨newThreadId, name, now, now⟩) := by
      unfold threadsCreate
      simp only [hcb, Bool.not_true, Bool.false_eq_true, if_false]
    constructor
    · rw [hok]
      apply iff_of_false
      · simp
      · exact fun hn => hn (hcount.mp hc)
    · intro _
      exact ⟨_, hok, rfl⟩
  · have hcb : ((db.users.filter
        (fun u => participantIds.contains u.id)).length
          == participantIds.length) = false :=
      Bool.eq_false_iff.mpr (fun h => hc (beq_iff_eq.mp h))
    have herr : threadsCreate db callerId name participantIds newThreadId now =
        .error .badRequest := by
      unfold threadsCreate
      simp only [hcb, Bool.not_false, if_true]
    constructor
    · rw [herr]
      apply iff_of_true rfl
      exact fun hcond => hc (hcount.mpr hcond)
    · intro hcond
      exact absurd (hcount.mpr hcond) hc

/-- C5 (amended) witness: creating a thread in `dbW` with the valid,
duplicate-free participant list `[2]` succeeds. -/
theorem threadsCreate_validation_witness :
    ∃ db', threadsCreate dbW 1 none [2] 50 9 = .ok (db', ⟨50, none, 9, 9⟩)
      ∧ db'.threads = dbW.threads ++ [⟨50, none, 9, 9⟩] :=
  (threadsCreate_validation dbW 1 none [2] 50 9 (by decide)).2 (by decide)

/-- C6: after a successful `threads.create`, the participant rows of the new
thread carry exactly the user set `participantIds ∪ {caller}`, each user
once. -/
theorem threadsCreate_participant_set (db : DB) (callerId : Nat)
    (name : Option String) (participantIds : List Nat) (newThreadId now : Nat)
    (db' : DB) (th : ThreadRow)
    (hok : threadsCreate db callerId name participantIds newThreadId now =
      .ok (db', th))
    (hfresh : ∀ p ∈ db.participants, p.threadId ≠ newThreadId) :
    ((db'.participants.filter (fun p => p.threadId == newThreadId)).map
        ParticipantRow.userId).Nodup
    ∧ ∀ x, (x ∈ (db'.participants.filter
        (fun p => p.threadId == newThreadId)).map ParticipantRow.userId
          ↔ x ∈ participantIds ∨ x = callerId) := by
  unfold threadsCreate at hok
  by_cases hc : ((db.users.filter
      (fun u => participantIds.contains u.id)).length
        == participantIds.length) = true
  · simp only [hc, Bool.not_true, Bool.false_eq_true, if_false] at hok
    have hpair := Except.ok.inj hok
    have hdb : db' = { db with threads := db.threads ++ [⟨newThreadId, name, now, now⟩], participants := db.participants ++ (jsSetDedup (participantIds ++ [callerId])).map (fun userId => ⟨newThreadId, userId, now⟩) } :=
      (congrArg Prod.fst hpair).symm
    rw [hdb]
    have hparts : ({ db with threads := db.threads ++ [⟨newThreadId, name, now, now⟩], participants := db.participants ++ (jsSetDedup (participantIds ++ [callerId])).map (fun userId => ⟨newThreadId, userId, now⟩) } : DB).participants = db.participants ++ (jsSetDedup (participantIds ++ [callerId])).map (fun userId => ⟨newThreadId, userId, now⟩) := rfl
    rw [hparts, List.filter_append]
    have hold : db.participants.filter (fun p => p.threadId == newThreadId)
        = [] := by
      rw [List.filter_eq_nil_iff]
      intro p hp
      simp [hfresh p hp]
    have hnew : ((jsSetDedup (participantIds ++ [callerId])).map (fun userId => ({ threadId := newThreadId, userId := userId, joinedAt := now } : ParticipantRow))).filter (fun p => p.threadId == newThreadId) = (jsSetDedup (participantIds ++ [callerId])).map (fun userId => ({ threadId := newThreadId, userId := userId, joinedAt := now } : ParticipantRow)) := by
      rw [List.filter_eq_self]
      intro q hq
      rcases List.mem_map.mp hq with ⟨uid, _, rfl⟩
      simp
    rw [hold, hnew, List.nil_append, List.map_map]
    have hmapid : ((jsSetDedup (participantIds ++ [callerId])).map (ParticipantRow.userId ∘ (fun userId => ({ threadId := newThreadId, userId := userId, joinedAt := now } : ParticipantRow)))) = jsSetDedup (participantIds ++ [callerId]) := by
      have hcomp : (ParticipantRow.userId ∘ (fun userId => ({ threadId := newThreadId, userId := userId, joinedAt := now } : ParticipantRow))) = fun userId => userId := rfl
      rw [hcomp]
      exact List.map_id' _
    rw [hmapid]
    refine ⟨jsSetDedup_nodup _, ?_⟩
    intro x
    rw [jsSetDedup_mem, List.mem_append, List.mem_singleton]
  · have hcb : ((db.users.filter
        (fun u => participantIds.contains u.id)).length
          == participantIds.length) = false := Bool.eq_false_iff.mpr hc
    simp only [hcb, Bool.not_false, if_true] at hok
    simp at hok

/-- Result store of the C6 witness run. -/
def dbC6res : DB :=
  { dbW with
    threads := dbW.threads ++ [⟨50, none, 9, 9⟩],
    participants := dbW.participants ++ [⟨50, 2, 9⟩, ⟨50, 1, 9⟩] }

/-- C6 witness: user 1 creates a thread naming `[2, 1]`; the new thread's
participant user set is exactly `{2, 1}` with no duplicates. -/
theorem threadsCreate_participant_set_witness :
    ((dbC6res.participants.filter (fun p => p.threadId == 50)).map
        ParticipantRow.userId).Nodup
    ∧ ∀ x, (x ∈ (dbC6res.participants.filter
        (fun p => p.threadId == 50)).map ParticipantRow.userId
          ↔ x ∈ [2, 1] ∨ x = 1) :=
  threadsCreate_participant_set dbW 1 none [2, 1] 50 9 dbC6res
    ⟨50, none, 9, 9⟩ rfl (by decide)

/-- C10: the result of `users.searchByUsername` does not depend on the
`username` argument — the JavaScript `&&` discards the `ilike` condition,
leaving only `id ≠ caller` — and every returned user differs from the
caller. -/
theorem searchByUsername_ignores_username (db : DB) (callerId : Nat)
    (u1 u2 : String) (limit : Nat) :
    usersSearchByUsername db callerId u1 limit =
      usersSearchByUsername db callerId u2 limit
    ∧ ∀ u ∈ usersSearchByUsername db callerId u1 limit, u.id ≠ callerId := by
  constructor
  · rfl
  · intro u hu
    unfold usersSearchByUsername jsAnd at hu
    have hmem := List.take_subset _ _ hu
    have hcond := (List.mem_filter.mp hmem).2
    unfold condHolds at hcond
    simpa using hcond

/-- Input lists of the C9 counterexample: the confirmed entry `m1` and a
still-unreplaced matching placeholder coexist. -/
def prevC9 : List ClientMessage :=
  [⟨"m1", "hi", "u1", "alice"⟩, ⟨"optimistic-1", "hi", "u1", "alice"⟩]

/-- The incoming fan-out event of the C9 counterexample. -/
def eventC9 : ClientMessage := ⟨"m1", "hi", "u1", "alice"⟩

/-- C9 counterexample: when the event's id is already present, the updater
returns the list unchanged even though it still holds a placeholder
matching the event — the result contains both the confirmed entry and the
matching placeholder. -/
theorem handleNewMessage_keeps_both :
    handleNewMessage eventC9 prevC9 = prevC9
    ∧ (∃ m ∈ handleNewMessage eventC9 prevC9,
        matchesPlaceholder eventC9 m = true)
    ∧ (∃ m ∈ handleNewMessage eventC9 prevC9,
        m.id = eventC9.id ∧ isOptimisticId m.id = false) := by
  decide

/-- C9 (amended): when the event's real id is already present the list is
returned unchanged (a coexisting matching placeholder is kept); otherwise
the confirmed entry enters the list, and — provided the list held at most
one matching placeholder — the result holds no matching placeholder at all
(the first placeholder was replaced, or the event was appended). -/
theorem handleNewMessage_reconciliation (prev : List ClientMessage)
    (event : ClientMessage)
    (hreal : isOptimisticId event.id = false) :
    ((∃ m ∈ prev, m.id = event.id) → handleNewMessage event prev = prev)
    ∧ ((¬ ∃ m ∈ prev, m.id = event.id) →
        event ∈ handleNewMessage event prev
        ∧ (prev.countP (matchesPlaceholder event) ≤ 1 →
            ∀ m ∈ handleNewMessage event prev,
              matchesPlaceholder event m = false)) := by
  have hrealmatch : matchesPlaceholder event event = false := by
    unfold matchesPlaceholder
    rw [hreal]
    rfl
  constructor
  · rintro ⟨m, hm, hid⟩
    have hany : prev.any (fun m => m.id == event.id) = true :=
      List.any_eq_true.mpr ⟨m, hm, by simp [hid]⟩
    unfold handleNewMessage
    rw [if_pos hany]
  · intro hnone
    have hany : prev.any (fun m => m.id == event.id) = false := by
      rw [Bool.eq_false_iff]
      intro h
      rcases List.any_eq_true.mp h with ⟨m, hm, hid⟩
      exact hnone ⟨m, hm, by simpa using hid⟩
    unfold handleNewMessage
    rw [hany]
    simp only [Bool.false_eq_true, if_false]
    cases hfi : prev.findIdx? (matchesPlaceholder event) with
    | none =>
      constructor
      · simp
      · intro _ m hm
        rcases List.mem_append.mp hm with hm | hm
        · exact (List.findIdx?_eq_none_iff.mp hfi) m hm
        · rw [List.mem_singleton.mp hm]
          exact hrealmatch
    | some i =>
      rcases List.findIdx?_eq_some_iff_getElem.mp hfi with ⟨hilt, hpi, _⟩
      constructor
      · rw [List.mem_iff_getElem]
        refine ⟨i, by rw [List.length_set]; exact hilt, ?_⟩
        exact List.getElem_set_self (by rw [List.length_set]; exact hilt)
      · intro hcount m hm
        have hc1 : 1 ≤ prev.countP (matchesPlaceholder event) := by
          have := List.countP_eq_zero (p := matchesPlaceholder event)
            (l := prev)
          by_contra _
          have hzero : prev.countP (matchesPlaceholder event) = 0 := by omega
          exact (List.countP_eq_zero.mp hzero _ (List.getElem_mem hilt)) hpi
        have hset := List.countP_set (matchesPlaceholder event) prev i event hilt
        rw [hpi, hrealmatch] at hset
        simp only [if_true, Bool.false_eq_true, if_false] at hset
        have hzero : (prev.set i event).countP (matchesPlaceholder event) = 0 := by
          omega
        exact Bool.eq_false_iff.mpr (List.countP_eq_zero.mp hzero m hm)

/-- C9 (amended) witness: a fresh event replaces the single matching
placeholder of a concrete list, leaving no placeholder behind. -/
theorem handleNewMessage_reconciliation_witness :
    (⟨"m2", "yo", "u1", "alice"⟩ : ClientMessage) ∈
      handleNewMessage ⟨"m2", "yo", "u1", "alice"⟩
        [⟨"m1", "hi", "u1", "alice"⟩, ⟨"optimistic-1", "yo", "u1", "alice"⟩]
    ∧ ∀ m ∈ handleNewMessage ⟨"m2", "yo", "u1", "alice"⟩
        [⟨"m1", "hi", "u1", "alice"⟩, ⟨"optimistic-1", "yo", "u1", "alice"⟩],
        matchesPlaceholder ⟨"m2", "yo", "u1", "alice"⟩ m = false := by
  have h := (handleNewMessage_reconciliation
    [⟨"m1", "hi", "u1", "alice"⟩, ⟨"optimistic-1", "yo", "u1", "alice"⟩]
    ⟨"m2", "yo", "u1", "alice"⟩ (by decide)).2 (by decide)
  exact ⟨h.1, h.2 (by decide)⟩

theorem strMk_cap_le (l : List Char) :
    (String.mk (if 64 < l.length then l.take 64 else l)).length ≤ 64 := by
  show (if 64 < l.length then l.take 64 else l).length ≤ 64
  by_cases h : 64 < l.length
  · rw [if_pos h, List.length_take]
    omega
  · rw [if_neg h]
    omega

theorem normaliseUsername_length_le (user : ClerkWebhookUser) :
    (normaliseUsername user).length ≤ 64 :=
  strMk_cap_le _

theorem padUsernameLoop_stop (l : List String) (u : List Char)
    (h : ¬u.length < 4) : padUsernameLoop l u = u := by
  cases l with
  | nil => rfl
  | cons s rest =>
    unfold padUsernameLoop
    rw [if_neg h]

theorem padUsernameLoop_length (s4 : String) (rest : List String)
    (u : List Char) (hs4 : s4.length = 4) :
    (padUsernameLoop (s4 :: rest) u).length =
      if u.length < 4 then u.length + 5 else u.length := by
  have hs4' : s4.data.length = 4 := hs4
  by_cases h : u.length < 4
  · rw [if_pos h]
    unfold padUsernameLoop
    rw [if_pos h]
    have hlen : (u ++ '-' :: s4.data).length = u.length + 5 := by
      rw [List.length_append, List.length_cons, hs4']
    rw [padUsernameLoop_stop rest _ (by omega), hlen]
  · rw [if_neg h]
    unfold padUsernameLoop
    rw [if_neg h]

/-- Webhook user whose normalized base handle is exactly 64 characters:
the collision fallback is truncated back to the original handle. -/
def userC3 : ClerkWebhookUser :=
  ⟨"user_c3", some (String.mk (List.replicate 64 'a')), [], none⟩

/-- C3 counterexample: the first-authentication `resolveUser` path stores
the provider-assigned candidate verbatim, so a provider username of "ab"
yields a stored handle of length 2, violating the 4-character lower bound
the claim asserts for every user-record path; and on the webhook path the
collision sub-claim also fails at the boundary: for a 64-character base
handle the truncated random-suffix fallback equals the non-collision
handle, so the two colliding users do not end up with distinct handles. -/
theorem resolveUser_stores_short_username :
    (resolveUserStoredUsername (some "ab") none "user_1" false "abcdef" = "ab"
      ∧ (resolveUserStoredUsername (some "ab") none "user_1"
          false "abcdef").length < 4)
    ∧ (normaliseUsername userC3).length = 64
    ∧ upsertUserStoredUsername userC3 ["ab12"] true "abcdef"
        = upsertUserStoredUsername userC3 ["ab12"] false "abcdef" := by
  refine ⟨⟨rfl, by decide⟩, by decide, by decide⟩

/-- C3 (amended): the webhook upsert paths keep the stored username within
4 and 64 characters — the padded `normaliseUsername` result on the normal
path, the random-suffix fallback on a collision — and whenever the base
handle is shorter than 64 characters the fallback differs from the
non-collision handle (at exactly 64 the truncation makes them coincide);
the first-authentication `resolveUser` path applies no such normalisation
or bounds. -/
theorem upsertUser_username_bounds (user : ClerkWebhookUser)
    (s4 uuid6 : String) (rest : List String) (collision : Bool)
    (hs4 : s4.length = 4) (h6 : uuid6.length = 6) :
    4 ≤ (upsertUserStoredUsername user (s4 :: rest) collision uuid6).length
    ∧ (upsertUserStoredUsername user (s4 :: rest) collision uuid6).length ≤ 64
    ∧ ((normaliseUsername user).length < 64 →
        upsertUserStoredUsername user (s4 :: rest) true uuid6 ≠
          upsertUserStoredUsername user (s4 :: rest) false uuid6) := by
  have hbase_le := normaliseUsername_length_le user
  have h6' : uuid6.data.length = 6 := h6
  have hbase_data : (normaliseUsername user).data.length =
      (normaliseUsername user).length := rfl
  have hfall_len : (String.mk (((normaliseUsername user).data ++
      '-' :: uuid6.data).take 64)).length =
      min ((normaliseUsername user).length + 7) 64 := by
    show (((normaliseUsername user).data ++ '-' :: uuid6.data).take 64).length
      = min ((normaliseUsername user).length + 7) 64
    rw [List.length_take, List.length_append, List.length_cons, h6']
    have : (normaliseUsername user).data.length + (6 + 1) =
        (normaliseUsername user).length + 7 := by
      rw [hbase_data]
    omega
  have hpad_len : (String.mk (padUsernameLoop (s4 :: rest)
      (normaliseUsername user).data)).length =
      if (normaliseUsername user).length < 4 then
        (normaliseUsername user).length + 5
      else (normaliseUsername user).length := by
    show (padUsernameLoop (s4 :: rest) (normaliseUsername user).data).length = _
    rw [padUsernameLoop_length s4 rest _ hs4, hbase_data]
  refine ⟨?_, ?_, ?_⟩
  · cases collision with
    | true =>
      show 4 ≤ (String.mk (((normaliseUsername user).data ++
        '-' :: uuid6.data).take 64)).length
      rw [hfall_len]
      omega
    | false =>
      show 4 ≤ (String.mk (padUsernameLoop (s4 :: rest)
        (normaliseUsername user).data)).length
      rw [hpad_len]
      by_cases h : (normaliseUsername user).length < 4
      · rw [if_pos h]
        omega
      · rw [if_neg h]
        omega
  · cases collision with
    | true =>
      show (String.mk (((normaliseUsername user).data ++
        '-' :: uuid6.data).take 64)).length ≤ 64
      rw [hfall_len]
      omega
    | false =>
      show (String.mk (padUsernameLoop (s4 :: rest)
        (normaliseUsername user).data)).length ≤ 64
      rw [hpad_len]
      by_cases h : (normaliseUsername user).length < 4
      · rw [if_pos h]
        omega
      · rw [if_neg h]
        omega
  · intro hlt heq
    have hlens := congrArg String.length heq
    have hl1 : (upsertUserStoredUsername user (s4 :: rest) true uuid6).length =
        min ((normaliseUsername user).length + 7) 64 := hfall_len
    have hl2 : (upsertUserStoredUsername user (s4 :: rest) false uuid6).length =
        if (normaliseUsername user).length < 4 then
          (normaliseUsername user).length + 5
        else (normaliseUsername user).length := hpad_len
    rw [hl1, hl2] at hlens
    by_cases hb : (normaliseUsername user).length < 4
    · rw [if_pos hb] at hlens
      omega
    · rw [if_neg hb] at hlens
      omega

/-- C3 (amended) witness: the webhook path stores "alice" (5 characters,
within bounds) for a provider user named "Alice!", and the collision
fallback for that user differs from the non-collision handle. -/
theorem upsertUser_username_bounds_witness :
    (4 ≤ (upsertUserStoredUsername ⟨"user_abc123", some "Alice!", [], none⟩
        ["ab12"] false "abcdef").length
      ∧ (upsertUserStoredUsername ⟨"user_abc123", some "Alice!", [], none⟩
        ["ab12"] false "abcdef").length ≤ 64)
    ∧ upsertUserStoredUsername ⟨"user_abc123", some "Alice!", [], none⟩
        ["ab12"] true "abcdef"
      ≠ upsertUserStoredUsername ⟨"user_abc123", some "Alice!", [], none⟩
        ["ab12"] false "abcdef" := by
  have h := upsertUser_username_bounds ⟨"user_abc123", some "Alice!", [], none⟩
    "ab12" "abcdef" [] false (by decide) (by decide)
  exact ⟨⟨h.1, h.2.1⟩, h.2.2 (by decide)⟩
